import Mathlib

/-!
# Verification of the betvex contract setup script

A shallow embedding of the orchestration logic of `src/setup.js` from
`vex-labs/setup-contract-script`.  The script drives a remote betting
contract: it provisions accounts, creates matches, places randomized bets,
moves matches through their lifecycle and claims winning/refundable bets.

Modelling conventions:
* `Math.random()` draws become oracle parameters (`ℚ` values in `[0,1)` for
  numeric draws, `Bool`-valued oracles for coin flips, a permutation
  parameter for the comparator shuffle).
* A remote call's settled outcome is an `Except` value; an operation retried
  over several attempts is a map from the 1-based attempt number to that
  attempt's outcome.
* The in-memory `matchOutcomes` tracker is a record of lists mirroring the
  JS object; the `bets` table is a map from match key to tracked bets.
-/

/-- `true` exactly when a settled result is a rejection. -/
def isFailure {ε α : Type} : Except ε α → Bool
  | .ok _ => false
  | .error _ => true

/-! ## Retry Supervisor: `retryOnFail` (src/setup.js lines 706-718) -/

/-- One run of the retry loop.  `op` maps the 1-based attempt number to that
attempt's outcome; the first `Nat` argument is the current attempt number and
recursion is on the number of remaining attempts.  The result records the
final outcome (`none` when the loop body never runs, i.e. `maxAttempts = 0`,
where the JS function returns `undefined`), the number of invocations of
`op`, and the total delay slept between attempts. -/
def retryGo {ε α : Type} (op : Nat → Except ε α) (delayMs : Nat) :
    Nat → Nat → Option (Except ε α) × Nat × Nat
  | _, 0 => (none, 0, 0)
  | attempt, n + 1 =>
    match op attempt with
    | .ok a => (some (.ok a), 1, 0)
    | .error e =>
      if n = 0 then (some (.error e), 1, 0)
      else
        let r := retryGo op delayMs (attempt + 1) n
        (r.1, r.2.1 + 1, r.2.2 + delayMs)

/-- `retryOnFail(operation, maxAttempts = 3, delayMs = 1000)`: invoke the
operation, on failure before the last attempt sleep `delayMs` and retry, on
the last attempt re-throw the error. -/
def retryOnFail {ε α : Type} (op : Nat → Except ε α)
    (maxAttempts : Nat := 3) (delayMs : Nat := 1000) :
    Option (Except ε α) × Nat × Nat :=
  retryGo op delayMs 1 maxAttempts

/-! ## Signer Pool: key rotation (src/setup.js lines 47-62) -/

/-- `getNextMainKey`: return the key at the current cursor, then advance the
cursor by one modulo the pool size. -/
def getNextMainKey (keys : List String) (cur : Nat) : Option String × Nat :=
  (keys[cur]?, (cur + 1) % keys.length)

/-- `getNextAdminKey`: identical rotation over the admin pool. -/
def getNextAdminKey (keys : List String) (cur : Nat) : Option String × Nat :=
  (keys[cur]?, (cur + 1) % keys.length)

/-- Cursor value after `n` sequential calls, starting from the initial 0. -/
def cursorAfter (keys : List String) : Nat → Nat
  | 0 => 0
  | n + 1 => (getNextMainKey keys (cursorAfter keys n)).2

/-- Key returned by the `(n+1)`-st sequential call. -/
def keyAtCall (keys : List String) (n : Nat) : Option String :=
  (getNextMainKey keys (cursorAfter keys n)).1

/-- The sequence of keys returned by `N` sequential calls. -/
def keySeq (keys : List String) (N : Nat) : List (Option String) :=
  (List.range N).map (keyAtCall keys)

/-- A concrete 10-key pool used to instantiate the rotation theorems. -/
def sampleKeys : List String :=
  ["k0", "k1", "k2", "k3", "k4", "k5", "k6", "k7", "k8", "k9"]

/-! ## Match data model -/

/-- A fixture match, restricted to the fields entering the derived key. -/
structure Match where
  team_1 : String
  team_2 : String
  date : String
deriving DecidableEq

/-- The derived match key, in JS: team_1-team_2-date (template literal). -/
def matchKey (m : Match) : String :=
  m.team_1 ++ "-" ++ m.team_2 ++ "-" ++ m.date

/-- A tracked bet as stored in `matchOutcomes.bets[matchId]`
(src/setup.js lines 418-429). -/
structure BetRec where
  betId : Nat
  accountId : String
  team : String
  amount : Int
deriving DecidableEq

/-- The `matchOutcomes` tracker (src/setup.js lines 216-221); the `bets`
table is modelled separately as a map from match key to its bet list. -/
structure MatchOutcomes where
  cancelled : List String
  endedBetting : List String
  finished : List (String × String)
deriving DecidableEq

/-! ## Match lifecycle: `manageMatches` (src/setup.js lines 461-582) -/

/-- The finishing loop (src/setup.js lines 542-572): for each candidate key
in order, skip when the tracker already records it finished (the in-loop
`matchOutcomes.finished.some(...)` idempotence guard), otherwise draw a
winner, issue one remote `finish_match` call, and record the pair only on
success.  `finishSucc` is the remote-success oracle, `winnerOf i` the winner
drawn at iteration `i`; the second component counts the `finish_match`
calls issued. -/
def finishLoop (finishSucc : String → String → Bool) (winnerOf : Nat → String) :
    List String → Nat → List (String × String) → List (String × String) × Nat
  | [], _, fin => (fin, 0)
  | mid :: rest, i, fin =>
    if fin.any (fun p => p.1 == mid) then
      finishLoop finishSucc winnerOf rest (i + 1) fin
    else
      let w := winnerOf i
      let fin2 := if finishSucc mid w then fin ++ [(mid, w)] else fin
      let r := finishLoop finishSucc winnerOf rest (i + 1) fin2
      (r.1, r.2 + 1)

/-- The keys recorded in `matchOutcomes.endedBetting`: the 6 matches taken
from the shuffled copy of the fixture, kept when their `end_betting` call
succeeded (failures are logged and skipped, src/setup.js lines 474-494).
Only membership in this list is consumed downstream, so recording the
successes in selection order is faithful despite the nondeterministic
completion order of the concurrent `end_betting` promises. -/
def endedBettingOf (perm : List Match) (endSucc : String → Bool) : List String :=
  ((perm.take 6).map matchKey).filter endSucc

/-- The keys recorded in `matchOutcomes.cancelled`: the last 2 fixture
matches (`matches.slice(-2)`), kept when their `cancel_match` call succeeded
(failures are logged and skipped, src/setup.js lines 500-518). -/
def cancelledOf (fixture : List Match) (cancelSucc : String → Bool) : List String :=
  ((fixture.drop (fixture.length - 2)).map matchKey).filter cancelSucc

/-- The finish candidates (src/setup.js lines 525-535): of the shuffled
selection, those that ended betting, were not cancelled, and are not yet in
the (still empty) finished list — the first 4 of them. -/
def toFinishOf (perm : List Match) (ended cancelled : List String) : List Match :=
  ((perm.take 6).filter (fun m =>
    decide (matchKey m ∈ ended) &&
    !(decide (matchKey m ∈ cancelled)) &&
    !(([] : List (String × String)).any (fun p => p.1 == matchKey m)))).take 4

/-- `manageMatches` (src/setup.js lines 461-582), composed from the pieces
above; `perm` models the result of the `sort(() => Math.random() - 0.5)`
comparator shuffle. -/
def manageMatchesRun (fixture perm : List Match)
    (endSucc cancelSucc : String → Bool) (finishSucc : String → String → Bool)
    (winnerOf : Nat → String) : MatchOutcomes :=
  let ended := endedBettingOf perm endSucc
  let cancelled := cancelledOf fixture cancelSucc
  let toFinish := toFinishOf perm ended cancelled
  { cancelled := cancelled, endedBetting := ended,
    finished := (finishLoop finishSucc winnerOf (toFinish.map matchKey) 0 []).1 }

/-! ## Claim processing: `processWinningClaims` (src/setup.js lines 585-696) -/

/-- The winning bets of a finished match:
`matchBets.filter((bet) => bet.team === winner)`. -/
def winningBets (winner : String) (l : List BetRec) : List BetRec :=
  l.filter (fun b => b.team == winner)

/-- Claim attempts issued while walking `matchOutcomes.finished`: for each
finished match, one claim attempt per winning bet. -/
def claimAttemptsFinished (finished : List (String × String))
    (bets : String → List BetRec) : List (String × BetRec) :=
  finished.flatMap (fun p => (winningBets p.2 (bets p.1)).map (fun b => (p.1, b)))

/-- Claim attempts issued while walking `matchOutcomes.cancelled`: every
tracked bet of a cancelled match is claimed. -/
def claimAttemptsCancelled (cancelled : List String)
    (bets : String → List BetRec) : List (String × BetRec) :=
  cancelled.flatMap (fun mid => (bets mid).map (fun b => (mid, b)))

/-- All (match key, bet) pairs for which `processWinningClaims` attempts at
least one `claim` call. -/
def claimAttempts (o : MatchOutcomes) (bets : String → List BetRec) :
    List (String × BetRec) :=
  claimAttemptsFinished o.finished bets ++ claimAttemptsCancelled o.cancelled bets

/-! ## Betting-phase pre-selection (src/setup.js lines 314-327) -/

/-- `makeRandomBets` pre-determines the matches that "will be finished":
`matches.slice(0, 6)`. -/
def matchesToFinishPre (fixture : List Match) : List Match := fixture.take 6

/-- The pre-determined winners map: every pre-selected match is recorded as
"will be finished with Team1 as winner". -/
def matchWinnersPre (fixture : List Match) : List (String × String) :=
  (matchesToFinishPre fixture).map (fun m => (matchKey m, "Team1"))

/-! ## Concrete sample fixture used by counterexamples and witnesses -/

/-- A sample fixture match with a distinct key per index. -/
def mkSampleMatch (i : Nat) : Match :=
  { team_1 := toString i, team_2 := "B", date := "d" }

/-- A 20-match sample fixture (distinct keys 0-B-d ... 19-B-d). -/
def sampleMatches : List Match := (List.range 20).map mkSampleMatch

/-- A sample shuffle result: the fixture rotated by 6, so that the shuffled
selection picks matches 6..11 of the fixture. -/
def samplePerm : List Match := sampleMatches.drop 6 ++ sampleMatches.take 6

/-- A sample winning bet on the finished sample match. -/
def sampleBetA : BetRec := { betId := 1, accountId := "user-1", team := "Team1", amount := 10 }

/-- A sample losing bet on the finished sample match. -/
def sampleBetB : BetRec := { betId := 2, accountId := "user-2", team := "Team2", amount := 20 }

/-- A sample bet on the cancelled sample match. -/
def sampleBetC : BetRec := { betId := 3, accountId := "user-3", team := "Team2", amount := 30 }

/-- A sample tracker state: one finished match `f1` (winner `Team1`) and one
cancelled match `c1`. -/
def sampleOutcomes : MatchOutcomes :=
  { cancelled := ["c1"], endedBetting := ["f1"], finished := [("f1", "Team1")] }

/-- Sample tracked bets for `sampleOutcomes`. -/
def sampleBets : String → List BetRec := fun mid =>
  if mid = "f1" then [sampleBetA, sampleBetB]
  else if mid = "c1" then [sampleBetC]
  else []

/-! ## Batch execution and process termination -/

/-- `Promise.all` over the settled per-item results of a batch: fulfils with
the list of values when every item fulfils, rejects otherwise.  (Which of
several rejections is surfaced depends on completion timing in JS; the model
surfaces the first in list order — the theorems below depend only on whether
a rejection exists.) -/
def promiseAll {ε α : Type} : List (Except ε α) → Except ε (List α)
  | [] => .ok []
  | r :: rest =>
    match r with
    | .error e => .error e
    | .ok a =>
      match promiseAll rest with
      | .ok vs => .ok (a :: vs)
      | .error e => .error e

/-- `p.catch(handler)` where the handler only logs (and rolls back a
counter) and returns `undefined`: the resulting promise always fulfils,
with `none` marking a failed item. -/
def promiseWithCatch {ε α : Type} : Except ε α → Option α
  | .ok a => some a
  | .error _ => none

/-- The betting batch (src/setup.js lines 381-392 and 399-401): every
pushed promise is `bet(...).catch(...)`, so `Promise.all` awaits a list of
promises that all fulfil. -/
def bettingBatch {ε α : Type} (rs : List (Except ε α)) : Except ε (List (Option α)) :=
  promiseAll (rs.map (fun r => Except.ok (promiseWithCatch r)))

/-- A fatal provisioning phase (account creation, NEAR funding, USDC
registration, USDC transfer): `await Promise.all(...)` inside a `try` whose
`catch` calls `process.exit(1)` (src/setup.js lines 119-126, 135-142,
151-158, 167-174). -/
def phaseExit {ε α : Type} (rs : List (Except ε α)) : Option Nat :=
  match promiseAll rs with
  | .ok _ => none
  | .error _ => some 1

/-- The match-creation loop: batches awaited in order with `Promise.all`,
exiting the process with code 1 on the first failing batch
(src/setup.js lines 185-211). -/
def matchCreationExit {ε α : Type} : List (List (Except ε α)) → Option Nat
  | [] => none
  | b :: rest =>
    match promiseAll b with
    | .error _ => some 1
    | .ok _ => matchCreationExit rest

/-- Exit decision across the five fail-fast phases, in script order. -/
def fatalExit {ε α : Type} (accountRs nearRs regRs usdcRs : List (Except ε α))
    (matchBatches : List (List (Except ε α))) : Option Nat :=
  phaseExit accountRs <|> phaseExit nearRs <|> phaseExit regRs <|>
    phaseExit usdcRs <|> matchCreationExit matchBatches

/-- Per-bet claim processing (src/setup.js lines 601-625 and 635-661): one
`claimBet` call, and on failure exactly one further `claimBet` call.  The
result maps each attempted (match key, bet) pair to its number of `claimBet`
invocations; `firstSucc` tells, per bet id, whether the first `claimBet`
call succeeded.  Failures never terminate the loop or the process. -/
def claimsRun (o : MatchOutcomes) (bets : String → List BetRec)
    (firstSucc : Nat → Bool) : List ((String × BetRec) × Nat) :=
  (claimAttempts o bets).map (fun p => (p, if firstSucc p.2.betId then 1 else 2))

/-- Low-level attempt accounting for one bet's claim processing: `claimBet`
wraps its remote call in `retryOnFail` with the default budget (3 attempts,
1000 ms delay); `op1` is the operation behind the first `claimBet` call and
`op2` the one behind the in-catch extra call.  Returns (number of `claimBet`
invocations, total remote `claim` attempts). -/
def processClaimAttempts {ε α : Type} (op1 op2 : Nat → Except ε α) : Nat × Nat :=
  match retryOnFail op1 3 1000 with
  | (some (.ok _), c, _) => (1, c)
  | (some (.error _), c, _) => (2, c + (retryOnFail op2 3 1000).2.1)
  | (none, c, _) => (1, c)

/-- The script's end-to-end control flow as far as exit codes and the
tracker are concerned: the five provisioning phases are fail-fast (the first
unrecovered failure exits with code 1, before the later phases run); the
betting, lifecycle and claim phases contain no `process.exit` at all
(src/setup.js lines 224-703), so once match creation succeeds the run
completes with the tracker produced by `manageMatches` and the per-bet claim
attempts of `processWinningClaims`. -/
structure RunResult where
  exitCode : Option Nat
  outcomes : MatchOutcomes
  claims : List ((String × BetRec) × Nat)

/-- See `RunResult`. -/
def scriptRun {ε α : Type} (accountRs nearRs regRs usdcRs : List (Except ε α))
    (matchBatches : List (List (Except ε α)))
    (fixture perm : List Match) (endSucc cancelSucc : String → Bool)
    (finishSucc : String → String → Bool) (winnerOf : Nat → String)
    (bets : String → List BetRec) (firstSucc : Nat → Bool) : RunResult :=
  match fatalExit accountRs nearRs regRs usdcRs matchBatches with
  | some c => { exitCode := some c, outcomes := ⟨[], [], []⟩, claims := [] }
  | none =>
    let o := manageMatchesRun fixture perm endSucc cancelSucc finishSucc winnerOf
    { exitCode := none, outcomes := o, claims := claimsRun o bets firstSucc }

/-! ## Betting loop: `makeRandomBets` (src/setup.js lines 311-397) -/

/-- `Math.floor(Math.random() * 5) + 8`: the number of bets an account will
attempt, drawn from the random value `q ∈ [0, 1)`. -/
def numberOfBetsOf (q : ℚ) : Nat := (⌊q * 5⌋ + 8).toNat

/-- The value the allowance check reads from the shared
`accountBetAmounts[accountId]` ledger (src/setup.js line 362) once the bets
in `acc` have been pushed: every pushed bet added its amount at push time
(line 375) and every rejected bet whose catch handler (line 390) has already
run by then subtracted it back.  The loop sleeps 500 ms between bets
(line 395) — a suspension point at which pending catch handlers run — so the
set of rollbacks visible to a given check depends on the schedule: the
oracle `rb i j` is `true` when bet `j`'s rejection handler has run before
the allowance check of iteration `i`.  The ledger view is then the sum of
the pushed amounts whose rollback has not yet fired. -/
def ledgerView (rb : Nat → Nat → Bool) (i : Nat) (acc : List Int) : Int :=
  ((acc.enum.filter (fun p => !(rb i p.1))).map Prod.snd).sum

/-- The per-account bet loop of `makeRandomBets` (src/setup.js lines
343-396) over the shared ledger: at each iteration the remaining allowance
is recomputed as `1000 -` the current ledger view (line 362; mid-loop
rollbacks may have replenished it), the loop breaks when it is
non-positive, otherwise the amount `Math.floor(rand * min(remaining, 100))
+ 1` is drawn and pushed.  `acc` is the list of amounts attempted so far
(bet `j` is pushed at iteration `j`, so the current iteration index is
`acc.length`); recursion is on the remaining iteration budget. -/
def makeBetsConc (r : Nat → ℚ) (rb : Nat → Nat → Bool) : List Int → Nat → List Int
  | acc, 0 => acc
  | acc, n + 1 =>
    let remaining : Int := 1000 - ledgerView rb acc.length acc
    if remaining ≤ 0 then acc
    else
      let maxBet : Int := min remaining 100
      let a : Int := ⌊r acc.length * (maxBet : ℚ)⌋ + 1
      makeBetsConc r rb (acc ++ [a]) n

/-- The full list of bet amounts one account attempts: `nq` drives the
number-of-bets draw, `r` the per-bet amount draws, and `rb` the rollback
schedule (which rejected bets' catch handlers have run before which
allowance check). -/
def makeBetsAttempts (nq : ℚ) (r : Nat → ℚ) (rb : Nat → Nat → Bool) : List Int :=
  makeBetsConc r rb [] (numberOfBetsOf nq)

/-- Each attempted bet paired with whether its promise eventually fulfilled
(`succ i` for the `i`-th pushed bet). -/
def betsWithOutcome (succ : Nat → Bool) (amounts : List Int) : List (Int × Bool) :=
  amounts.enum.map (fun p => (p.2, succ p.1))

/-- The account's tracked total after all bet promises settle: every bet
added its amount when pushed (`accountBetAmounts[accountId] += betAmount`,
line 375) and every rejected bet's catch subtracted it back (line 390). -/
def trackedAfterSettle (succ : Nat → Bool) (amounts : List Int) : Int :=
  amounts.sum -
    (((betsWithOutcome succ amounts).filter (fun p => !p.2)).map Prod.fst).sum

/-- The sum of the amounts of the successfully placed bets. -/
def successfulSum (succ : Nat → Bool) (amounts : List Int) : Int :=
  (((betsWithOutcome succ amounts).filter (fun p => p.2)).map Prod.fst).sum

-- ======================================================================
-- Theorems
-- ======================================================================

/-! ### Retry Supervisor -/

theorem retryGo_ok {ε α : Type} (op : Nat → Except ε α) (delayMs : Nat) (v : α) :
    ∀ (k n attempt : Nat), k < n →
      (∀ j, j < k → ∃ e, op (attempt + j) = Except.error e) →
      op (attempt + k) = Except.ok v →
      retryGo op delayMs attempt n = (some (Except.ok v), k + 1, k * delayMs) := by
  intro k
  induction k with
  | zero =>
    intro n attempt hlt hfail hok
    obtain ⟨m, rfl⟩ : ∃ m, n = m + 1 := ⟨n - 1, by omega⟩
    rw [Nat.add_zero] at hok
    simp [retryGo, hok]
  | succ k ih =>
    intro n attempt hlt hfail hok
    obtain ⟨m, rfl⟩ : ∃ m, n = m + 1 := ⟨n - 1, by omega⟩
    obtain ⟨e, he⟩ := hfail 0 (by omega)
    rw [Nat.add_zero] at he
    have hm : ¬ m = 0 := by omega
    have hrec := ih m (attempt + 1) (by omega)
      (fun j hj => by
        have h2 := hfail (j + 1) (by omega)
        rwa [show attempt + (j + 1) = attempt + 1 + j by omega] at h2)
      (by rwa [show attempt + (k + 1) = attempt + 1 + k by omega] at hok)
    simp only [retryGo, he, hrec, if_neg hm]
    refine Prod.ext rfl (Prod.ext rfl ?_)
    simp [Nat.succ_mul]

theorem retryGo_all_fail {ε α : Type} (op : Nat → Except ε α) (delayMs : Nat)
    (errs : Nat → ε) (hop : ∀ i, op i = Except.error (errs i)) :
    ∀ (n attempt : Nat), 1 ≤ n →
      retryGo op delayMs attempt n =
        (some (Except.error (errs (attempt + n - 1))), n, (n - 1) * delayMs) := by
  intro n
  induction n with
  | zero => intro attempt h; omega
  | succ n ih =>
    intro attempt _
    by_cases hn : n = 0
    · subst hn
      simp [retryGo, hop]
    · have hrec := ih (attempt + 1) (by omega)
      simp only [retryGo, hop attempt, if_neg hn, hrec]
      refine Prod.ext ?_ (Prod.ext rfl ?_)
      · simp only [Option.some.injEq, Except.error.injEq]
        congr 1
        omega
      · obtain ⟨m, rfl⟩ : ∃ m, n = m + 1 := ⟨n - 1, by omega⟩
        simp [Nat.succ_mul]

/-- Claim C2: `retryOnFail(operation, maxAttempts, delayMs)` — an operation
that fails exactly `k < maxAttempts` times and then succeeds is invoked
exactly `k + 1` times, the success value is returned, and the fixed
`delayMs` is waited between attempts (total `k * delayMs`); an operation
that always fails is invoked exactly `maxAttempts` times and the last error
is re-raised unchanged (with `(maxAttempts - 1) * delayMs` total delay). -/
theorem claim_C2_retryOnFail :
    (∀ (ε α : Type) (op : Nat → Except ε α) (maxAttempts delayMs k : Nat) (v : α),
      k < maxAttempts →
      (∀ j, 1 ≤ j → j ≤ k → ∃ e, op j = Except.error e) →
      op (k + 1) = Except.ok v →
      retryOnFail op maxAttempts delayMs = (some (Except.ok v), k + 1, k * delayMs)) ∧
    (∀ (ε α : Type) (op : Nat → Except ε α) (maxAttempts delayMs : Nat) (errs : Nat → ε),
      1 ≤ maxAttempts →
      (∀ i, op i = Except.error (errs i)) →
      retryOnFail op maxAttempts delayMs =
        (some (Except.error (errs maxAttempts)), maxAttempts,
          (maxAttempts - 1) * delayMs)) := by
  constructor
  · intro ε α op maxAttempts delayMs k v hk hfail hok
    refine retryGo_ok op delayMs v k maxAttempts 1 hk ?_ ?_
    · intro j hj
      have := hfail (j + 1) (by omega) (by omega)
      rwa [show 1 + j = j + 1 by omega]
    · rwa [show 1 + k = k + 1 by omega]
  · intro ε α op maxAttempts delayMs errs hmax hop
    have h := retryGo_all_fail op delayMs errs hop maxAttempts 1 hmax
    rwa [show 1 + maxAttempts - 1 = maxAttempts by omega] at h

/-- Witness for C2: a concrete operation failing twice then succeeding is
invoked 3 times and returns the success; a concrete always-failing operation
is invoked all 3 times and re-raises its error. -/
theorem claim_C2_witness :
    retryOnFail (fun i => if i ≤ 2 then (Except.error "boom" : Except String Nat)
      else Except.ok 7) 3 5 = (some (Except.ok 7), 3, 10) ∧
    retryOnFail (fun _ => (Except.error "down" : Except String Nat)) 3 5 =
      (some (Except.error "down"), 3, 10) := by
  constructor
  · exact claim_C2_retryOnFail.1 String Nat _ 3 5 2 7 (by omega)
      (fun j h1 h2 => ⟨"boom", by interval_cases j <;> simp⟩) (by norm_num)
  · exact claim_C2_retryOnFail.2 String Nat _ 3 5 (fun _ => "down") (by omega)
      (fun i => rfl)

/-! ### Signer Pool -/

theorem cursorAfter_mod (keys : List String) (h10 : keys.length = 10) :
    ∀ n, cursorAfter keys n = n % 10 := by
  intro n
  induction n with
  | zero => rfl
  | succ n ih =>
    simp only [cursorAfter, getNextMainKey, h10, ih]
    omega

theorem keyAtCall_eq (keys : List String) (h10 : keys.length = 10) (n : Nat) :
    keyAtCall keys n = keys[n % 10]? := by
  simp [keyAtCall, getNextMainKey, cursorAfter_mod keys h10]

theorem rot_count_step (N j : Nat) (hj : j < 10) :
    N / 10 + (if j < N % 10 then 1 else 0) + (if N % 10 = j then 1 else 0) =
    (N + 1) / 10 + (if j < (N + 1) % 10 then 1 else 0) := by
  by_cases h1 : j < N % 10 <;> by_cases h2 : j < (N + 1) % 10 <;>
    by_cases h3 : N % 10 = j <;> simp [h1, h2, h3] <;> omega

theorem keySeq_count_formula (keys : List String) (h10 : keys.length = 10)
    (hnd : keys.Nodup) (j : Nat) (hj : j < 10) :
    ∀ N, List.count keys[j]? (keySeq keys N) =
      N / 10 + (if j < N % 10 then 1 else 0) := by
  intro N
  induction N with
  | zero => simp [keySeq]
  | succ N ih =>
    have hsplit : keySeq keys (N + 1) = keySeq keys N ++ [keyAtCall keys N] := by
      simp [keySeq, List.range_succ]
    have hsingle : List.count keys[j]? [keyAtCall keys N] =
        if N % 10 = j then 1 else 0 := by
      rw [keyAtCall_eq keys h10]
      by_cases hc : N % 10 = j
      · rw [if_pos hc, hc]
        simp [List.count_cons]
      · have hne : keys[N % 10]? ≠ keys[j]? := fun heq =>
          hc (List.getElem?_inj (by omega) hnd heq)
        rw [if_neg hc]
        simp [List.count_cons, hne]
    rw [hsplit, List.count_append, ih, hsingle]
    exact rot_count_step N j hj

/-- Claim C5: key rotation is round-robin over the 10 credentials per
principal: the admin rotation is the very same function as the main one; with
a 10-key pool the cursor stays in `[0, 10)` after every call, the sequence of
returned keys is periodic with period 10, and over `N` sequential calls each
key is returned either `⌊N/10⌋` or `⌈N/10⌉` times. -/
theorem claim_C5_key_rotation :
    (∀ (keys : List String) (cur : Nat),
      getNextAdminKey keys cur = getNextMainKey keys cur) ∧
    (∀ (keys : List String), keys.length = 10 →
      (∀ n, cursorAfter keys (n + 1) < 10) ∧
      (∀ n, keyAtCall keys (n + 10) = keyAtCall keys n) ∧
      (keys.Nodup → ∀ N j, j < 10 →
        List.count keys[j]? (keySeq keys N) = N / 10 ∨
        List.count keys[j]? (keySeq keys N) = (N + 9) / 10)) := by
  refine ⟨fun keys cur => rfl, fun keys h10 => ⟨?_, ?_, ?_⟩⟩
  · intro n
    rw [cursorAfter_mod keys h10]
    omega
  · intro n
    rw [keyAtCall_eq keys h10, keyAtCall_eq keys h10]
    congr 1
    omega
  · intro hnd N j hj
    rw [keySeq_count_formula keys h10 hnd j hj N]
    by_cases hlt : j < N % 10
    · right
      rw [if_pos hlt]
      omega
    · left
      rw [if_neg hlt]
      omega

/-- Witness for C5 at a concrete 10-key pool: the cursor is in range after
the 4th call, call 13 returns the same key as call 3, and key 1 is returned
`⌈13/10⌉ = 2` times in 13 calls. -/
theorem claim_C5_witness :
    cursorAfter sampleKeys (3 + 1) < 10 ∧
    keyAtCall sampleKeys (3 + 10) = keyAtCall sampleKeys 3 ∧
    (List.count sampleKeys[1]? (keySeq sampleKeys 13) = 13 / 10 ∨
     List.count sampleKeys[1]? (keySeq sampleKeys 13) = (13 + 9) / 10) := by
  have h := claim_C5_key_rotation.2 sampleKeys (by decide)
  exact ⟨h.1 3, h.2.1 3, h.2.2 (by decide) 13 1 (by decide)⟩

/-! ### Match lifecycle -/

theorem finishLoop_skip (fs : String → String → Bool) (wo : Nat → String)
    (rest : List String) (i : Nat) (fin : List (String × String)) (mid : String)
    (h : mid ∈ fin.map Prod.fst) :
    finishLoop fs wo (mid :: rest) i fin = finishLoop fs wo rest (i + 1) fin := by
  have hany : fin.any (fun p => p.1 == mid) = true := by
    obtain ⟨p, hp, hkey⟩ := List.mem_map.mp h
    exact List.any_eq_true.mpr ⟨p, hp, by simp [hkey]⟩
  simp [finishLoop, hany]

theorem finishLoop_nodup (fs : String → String → Bool) (wo : Nat → String) :
    ∀ (ms : List String) (i : Nat) (fin : List (String × String)),
      (fin.map Prod.fst).Nodup → (((finishLoop fs wo ms i fin).1.map Prod.fst)).Nodup := by
  intro ms
  induction ms with
  | nil => intro i fin h; simpa [finishLoop] using h
  | cons mid rest ih =>
    intro i fin h
    by_cases hany : fin.any (fun p => p.1 == mid) = true
    · simpa [finishLoop, hany] using ih (i + 1) fin h
    · have hnotin : mid ∉ fin.map Prod.fst := by
        intro hm
        obtain ⟨p, hp, hkey⟩ := List.mem_map.mp hm
        exact hany (List.any_eq_true.mpr ⟨p, hp, by simp [hkey]⟩)
      simp only [finishLoop, hany, if_false, Bool.false_eq_true]
      by_cases hsucc : fs mid (wo i) = true
      · have h2 : ((fin ++ [(mid, wo i)]).map Prod.fst).Nodup := by
          rw [List.map_append]
          refine List.nodup_append.mpr ⟨h, List.nodup_singleton _, ?_⟩
          intro a ha hb
          simp only [List.map_cons, List.map_nil, List.mem_singleton] at hb
          exact hnotin (hb ▸ ha)
        simpa [hsucc] using ih (i + 1) (fin ++ [(mid, wo i)]) h2
      · simp only [Bool.not_eq_true] at hsucc
        simpa [hsucc] using ih (i + 1) fin h

theorem finishLoop_length (fs : String → String → Bool) (wo : Nat → String) :
    ∀ (ms : List String) (i : Nat) (fin : List (String × String)),
      (finishLoop fs wo ms i fin).1.length ≤ fin.length + ms.length := by
  intro ms
  induction ms with
  | nil => intro i fin; simp [finishLoop]
  | cons mid rest ih =>
    intro i fin
    by_cases hany : fin.any (fun p => p.1 == mid) = true
    · have := ih (i + 1) fin
      simp only [finishLoop, hany, if_true, List.length_cons]
      omega
    · simp only [finishLoop, hany, if_false, Bool.false_eq_true]
      by_cases hsucc : fs mid (wo i) = true
      · have := ih (i + 1) (fin ++ [(mid, wo i)])
        simp only [hsucc, if_true, List.length_append, List.length_singleton] at this ⊢
        simp only [List.length_cons]
        omega
      · simp only [Bool.not_eq_true] at hsucc
        have := ih (i + 1) fin
        simp only [hsucc, List.length_cons, if_false, Bool.false_eq_true]
        omega

theorem finishLoop_mem (fs : String → String → Bool) (wo : Nat → String) :
    ∀ (ms : List String) (i : Nat) (fin : List (String × String))
      (p : String × String), p ∈ (finishLoop fs wo ms i fin).1 →
      p ∈ fin ∨ p.1 ∈ ms := by
  intro ms
  induction ms with
  | nil => intro i fin p hp; left; simpa [finishLoop] using hp
  | cons mid rest ih =>
    intro i fin p hp
    by_cases hany : fin.any (fun q => q.1 == mid) = true
    · rw [finishLoop_skip fs wo rest i fin mid ?side] at hp
      case side =>
        obtain ⟨q, hq, hkey⟩ := List.any_eq_true.mp hany
        simp only [beq_iff_eq] at hkey
        exact List.mem_map.mpr ⟨q, hq, hkey⟩
      rcases ih (i + 1) fin p hp with h | h
      · exact Or.inl h
      · exact Or.inr (List.mem_cons_of_mem _ h)
    · simp only [finishLoop, hany, if_false, Bool.false_eq_true] at hp
      by_cases hsucc : fs mid (wo i) = true
      · simp only [hsucc, if_true] at hp
        rcases ih (i + 1) (fin ++ [(mid, wo i)]) p hp with h | h
        · rcases List.mem_append.mp h with h2 | h2
          · exact Or.inl h2
          · simp only [List.mem_singleton] at h2
            subst h2
            exact Or.inr (List.mem_cons_self _ _)
        · exact Or.inr (List.mem_cons_of_mem _ h)
      · simp only [Bool.not_eq_true] at hsucc
        simp only [hsucc] at hp
        rcases ih (i + 1) fin p hp with h | h
        · exact Or.inl h
        · exact Or.inr (List.mem_cons_of_mem _ h)

/-- Claim C4: the finish step is idempotent per match key — for a key already
in the tracker's finished list the in-loop guard skips the key, issuing no
remote `finish_match` call and leaving the tracker state (and the call
trace of the rest of the loop) exactly as if the key had not been processed;
consequently the finished list never acquires two entries with the same key. -/
theorem claim_C4_finish_idempotent :
    (∀ (fs : String → String → Bool) (wo : Nat → String) (rest : List String)
       (i : Nat) (fin : List (String × String)) (mid : String),
       mid ∈ fin.map Prod.fst →
       finishLoop fs wo (mid :: rest) i fin = finishLoop fs wo rest (i + 1) fin) ∧
    (∀ (fs : String → String → Bool) (wo : Nat → String) (ms : List String)
       (i : Nat) (fin : List (String × String)), (fin.map Prod.fst).Nodup →
       (((finishLoop fs wo ms i fin).1.map Prod.fst)).Nodup) := by
  exact ⟨finishLoop_skip, fun fs wo ms i fin h => finishLoop_nodup fs wo ms i fin h⟩

/-- Witness for C4: a key already recorded finished is skipped with no extra
call, and a concrete run keeps the finished keys duplicate-free. -/
theorem claim_C4_witness :
    finishLoop (fun _ _ => true) (fun _ => "Team1") ["m1", "m2"] 0 [("m1", "Team1")] =
      finishLoop (fun _ _ => true) (fun _ => "Team1") ["m2"] 1 [("m1", "Team1")] ∧
    (((finishLoop (fun _ _ => true) (fun _ => "Team1") ["m1", "m2"] 0
        [("m1", "Team1")]).1.map Prod.fst)).Nodup := by
  exact ⟨claim_C4_finish_idempotent.1 _ _ _ 0 _ "m1" (by decide),
         claim_C4_finish_idempotent.2 _ _ _ 0 _ (by decide)⟩

theorem toFinishOf_props (perm : List Match) (ended cancelled : List String)
    (m : Match) (hm : m ∈ toFinishOf perm ended cancelled) :
    matchKey m ∈ ended ∧ matchKey m ∉ cancelled := by
  have hf := List.take_subset 4 _ hm
  have hp := List.of_mem_filter hf
  simp only [Bool.and_eq_true, Bool.not_eq_true', decide_eq_true_eq,
    decide_eq_false_iff_not] at hp
  exact ⟨hp.1.1, hp.1.2⟩

theorem manageMatchesRun_finished_facts (fixture perm : List Match)
    (endSucc cancelSucc : String → Bool) (finishSucc : String → String → Bool)
    (winnerOf : Nat → String) (p : String × String)
    (hp : p ∈ (manageMatchesRun fixture perm endSucc cancelSucc finishSucc winnerOf).finished) :
    p.1 ∈ endedBettingOf perm endSucc ∧ p.1 ∉ cancelledOf fixture cancelSucc := by
  have hm := finishLoop_mem finishSucc winnerOf _ 0 [] p hp
  rcases hm with h | h
  · simp at h
  · obtain ⟨m, hmem, hkey⟩ := List.mem_map.mp h
    have := toFinishOf_props perm _ _ m hmem
    rw [hkey] at this
    exact this

/-- Counterexample to C3 as stated: when both remote `cancel_match` calls
fail (after their retries), the tracker records no cancellation at all, so
the Cancelled set does not have size 2 — the code only records successful
cancels (src/setup.js lines 507-518). -/
theorem claim_C3_counterexample :
    (manageMatchesRun sampleMatches sampleMatches (fun _ => true) (fun _ => false)
      (fun _ _ => true) (fun _ => "Team1")).cancelled.length ≠ 2 := by
  decide

/-- Claim C3 (amended): after `manageMatches` on a 20-match fixture, the
finished list has at most 4 entries with pairwise distinct keys, each of
which underwent a successful `end_betting`; the cancelled list consists of
the keys of the last 2 fixture matches whose `cancel_match` succeeded (hence
has size at most 2, and exactly 2 when both cancel calls succeed), and is
disjoint from the finished keys. -/
theorem claim_C3_lifecycle_counts (fixture perm : List Match)
    (h20 : fixture.length = 20) (endSucc cancelSucc : String → Bool)
    (finishSucc : String → String → Bool) (winnerOf : Nat → String) :
    (manageMatchesRun fixture perm endSucc cancelSucc finishSucc winnerOf).finished.length ≤ 4 ∧
    ((manageMatchesRun fixture perm endSucc cancelSucc finishSucc winnerOf).finished.map
      Prod.fst).Nodup ∧
    (∀ p ∈ (manageMatchesRun fixture perm endSucc cancelSucc finishSucc winnerOf).finished,
      p.1 ∈ (manageMatchesRun fixture perm endSucc cancelSucc finishSucc winnerOf).endedBetting) ∧
    (∀ p ∈ (manageMatchesRun fixture perm endSucc cancelSucc finishSucc winnerOf).finished,
      p.1 ∉ (manageMatchesRun fixture perm endSucc cancelSucc finishSucc winnerOf).cancelled) ∧
    (manageMatchesRun fixture perm endSucc cancelSucc finishSucc winnerOf).cancelled =
      ((fixture.drop 18).map matchKey).filter cancelSucc ∧
    (manageMatchesRun fixture perm endSucc cancelSucc finishSucc winnerOf).cancelled.length ≤ 2 ∧
    ((∀ k, cancelSucc k = true) →
      (manageMatchesRun fixture perm endSucc cancelSucc finishSucc winnerOf).cancelled =
        (fixture.drop 18).map matchKey ∧
      (manageMatchesRun fixture perm endSucc cancelSucc finishSucc winnerOf).cancelled.length = 2) := by
  have hdrop : fixture.length - 2 = 18 := by omega
  have hcanc : (manageMatchesRun fixture perm endSucc cancelSucc finishSucc winnerOf).cancelled =
      ((fixture.drop 18).map matchKey).filter cancelSucc := by
    show cancelledOf fixture cancelSucc = _
    rw [cancelledOf, hdrop]
  have hlen2 : ((fixture.drop 18).map matchKey).length = 2 := by
    rw [List.length_map, List.length_drop, h20]
  refine ⟨?_, ?_, ?_, ?_, hcanc, ?_, ?_⟩
  · have h1 := finishLoop_length finishSucc winnerOf
      ((toFinishOf perm (endedBettingOf perm endSucc) (cancelledOf fixture cancelSucc)).map
        matchKey) 0 []
    have h2 : ((toFinishOf perm (endedBettingOf perm endSucc)
        (cancelledOf fixture cancelSucc)).map matchKey).length ≤ 4 := by
      rw [List.length_map, toFinishOf, List.length_take]
      omega
    show (finishLoop finishSucc winnerOf _ 0 []).1.length ≤ 4
    simp only [List.length_nil] at h1
    omega
  · exact finishLoop_nodup finishSucc winnerOf _ 0 [] (by simp)
  · intro p hp
    exact (manageMatchesRun_finished_facts fixture perm endSucc cancelSucc finishSucc
      winnerOf p hp).1
  · intro p hp
    exact (manageMatchesRun_finished_facts fixture perm endSucc cancelSucc finishSucc
      winnerOf p hp).2
  · rw [hcanc]
    calc (((fixture.drop 18).map matchKey).filter cancelSucc).length
        ≤ ((fixture.drop 18).map matchKey).length := List.length_filter_le _ _
      _ = 2 := hlen2
  · intro hall
    have : ((fixture.drop 18).map matchKey).filter cancelSucc =
        (fixture.drop 18).map matchKey :=
      List.filter_eq_self.mpr (fun a _ => hall a)
    rw [hcanc, this]
    exact ⟨rfl, hlen2⟩

/-- Witness for C3 (amended) at a concrete 20-match fixture with all remote
calls succeeding: at most 4 finishes, and exactly the last 2 fixture matches
recorded cancelled. -/
theorem claim_C3_witness :
    (manageMatchesRun sampleMatches samplePerm (fun _ => true) (fun _ => true)
      (fun _ _ => true) (fun _ => "Team1")).finished.length ≤ 4 ∧
    (manageMatchesRun sampleMatches samplePerm (fun _ => true) (fun _ => true)
      (fun _ _ => true) (fun _ => "Team1")).cancelled.length = 2 := by
  have h := claim_C3_lifecycle_counts sampleMatches samplePerm (by decide)
    (fun _ => true) (fun _ => true) (fun _ _ => true) (fun _ => "Team1")
  exact ⟨h.1, (h.2.2.2.2.2.2 (fun k => rfl)).2⟩

/-! ### Claim processing -/

theorem nodup_keys_eq {l : List (String × String)} (h : (l.map Prod.fst).Nodup)
    {k w w2 : String} (h1 : (k, w) ∈ l) (h2 : (k, w2) ∈ l) : w = w2 := by
  induction l with
  | nil => cases h1
  | cons a l ih =>
    simp only [List.map_cons, List.nodup_cons] at h
    rcases List.mem_cons.mp h1 with e1 | m1 <;> rcases List.mem_cons.mp h2 with e2 | m2
    · rw [← e1] at e2
      exact (Prod.mk.injEq _ _ _ _ |>.mp e2).2.symm
    · exact absurd (List.mem_map.mpr ⟨(k, w2), m2, by rw [← e1]⟩) h.1
    · exact absurd (List.mem_map.mpr ⟨(k, w), m1, by rw [← e2]⟩) h.1
    · exact ih h.2 m1 m2

theorem mem_claimAttempts_iff (o : MatchOutcomes) (bets : String → List BetRec)
    (mid : String) (b : BetRec) :
    (mid, b) ∈ claimAttempts o bets ↔
      ((∃ w, (mid, w) ∈ o.finished ∧ b ∈ bets mid ∧ b.team = w) ∨
       (mid ∈ o.cancelled ∧ b ∈ bets mid)) := by
  simp only [claimAttempts, List.mem_append, claimAttemptsFinished,
    claimAttemptsCancelled, List.mem_flatMap, List.mem_map, winningBets,
    List.mem_filter, beq_iff_eq, Prod.mk.injEq]
  constructor
  · rintro (⟨p, hp, b2, ⟨hb2, hteam⟩, hk, hb⟩ | ⟨m2, hm2, b2, hb2, hk, hb⟩)
    · subst hk
      subst hb
      exact Or.inl ⟨p.2, by simpa using hp, hb2, hteam⟩
    · subst hk
      subst hb
      exact Or.inr ⟨hm2, hb2⟩
  · rintro (⟨w, hw, hb, hteam⟩ | ⟨hm, hb⟩)
    · exact Or.inl ⟨(mid, w), hw, b, ⟨hb, hteam⟩, rfl, rfl⟩
    · exact Or.inr ⟨mid, hm, b, hb, rfl, rfl⟩

/-- Claim C1: claim selection matches lifecycle state — for a match recorded
Finished with a winner, a claim is attempted for a tracked bet of that match
iff the bet's team equals the recorded winner; for a match recorded
Cancelled every tracked bet gets a claim attempt; no claim is attempted for
bets on matches in any other state; and attempt membership is invariant
under any permutation of the insertion order of the tracked bets.  The
well-formedness hypotheses (no duplicate finished key, finished and
cancelled disjoint) are exactly what `manageMatches` guarantees (claim C3/C4
theorems). -/
theorem claim_C1_claim_selection (o : MatchOutcomes) (bets : String → List BetRec)
    (hnd : (o.finished.map Prod.fst).Nodup)
    (hdisj : ∀ mid, mid ∈ o.finished.map Prod.fst → mid ∉ o.cancelled) :
    (∀ mid w b, (mid, w) ∈ o.finished → b ∈ bets mid →
      ((mid, b) ∈ claimAttempts o bets ↔ b.team = w)) ∧
    (∀ mid b, mid ∈ o.cancelled → b ∈ bets mid →
      (mid, b) ∈ claimAttempts o bets) ∧
    (∀ mid b, mid ∉ o.finished.map Prod.fst → mid ∉ o.cancelled →
      (mid, b) ∉ claimAttempts o bets) ∧
    (∀ bets2 : String → List BetRec, (∀ mid, (bets2 mid).Perm (bets mid)) →
      ∀ mid b, ((mid, b) ∈ claimAttempts o bets2 ↔ (mid, b) ∈ claimAttempts o bets)) := by
  refine ⟨?_, ?_, ?_, ?_⟩
  · intro mid w b hw hb
    rw [mem_claimAttempts_iff]
    constructor
    · rintro (⟨w2, hw2, hb2, hteam⟩ | ⟨hm, hb2⟩)
      · rw [hteam]
        exact nodup_keys_eq hnd hw2 hw
      · exact absurd hm (hdisj mid (List.mem_map.mpr ⟨(mid, w), hw, rfl⟩))
    · intro hteam
      exact Or.inl ⟨w, hw, hb, hteam⟩
  · intro mid b hm hb
    rw [mem_claimAttempts_iff]
    exact Or.inr ⟨hm, hb⟩
  · intro mid b hnf hnc hmem
    rcases (mem_claimAttempts_iff o bets mid b).mp hmem with ⟨w, hw, _, _⟩ | ⟨hm, _⟩
    · exact hnf (List.mem_map.mpr ⟨(mid, w), hw, rfl⟩)
    · exact hnc hm
  · intro bets2 hp mid b
    rw [mem_claimAttempts_iff, mem_claimAttempts_iff]
    constructor
    · rintro (⟨w, hw, hb, hteam⟩ | ⟨hm, hb⟩)
      · exact Or.inl ⟨w, hw, (hp mid).mem_iff.mp hb, hteam⟩
      · exact Or.inr ⟨hm, (hp mid).mem_iff.mp hb⟩
    · rintro (⟨w, hw, hb, hteam⟩ | ⟨hm, hb⟩)
      · exact Or.inl ⟨w, hw, (hp mid).mem_iff.mpr hb, hteam⟩
      · exact Or.inr ⟨hm, (hp mid).mem_iff.mpr hb⟩

/-- Witness for C1 at a concrete tracker: the winning bet on the finished
match and the bet on the cancelled match are attempted, the losing bet on
the finished match is not. -/
theorem claim_C1_witness :
    ("f1", sampleBetA) ∈ claimAttempts sampleOutcomes sampleBets ∧
    ("f1", sampleBetB) ∉ claimAttempts sampleOutcomes sampleBets ∧
    ("c1", sampleBetC) ∈ claimAttempts sampleOutcomes sampleBets := by
  have h := claim_C1_claim_selection sampleOutcomes sampleBets (by decide)
    (by intro mid hm; simp [sampleOutcomes] at hm; subst hm; decide)
  refine ⟨?_, ?_, ?_⟩
  · exact (h.1 "f1" "Team1" sampleBetA (by decide) (by decide)).mpr rfl
  · intro hmem
    have := (h.1 "f1" "Team1" sampleBetB (by decide) (by decide)).mp hmem
    simp [sampleBetB] at this
  · exact h.2.1 "c1" sampleBetC (by decide) (by decide)

/-- Claim C6 concerns a divergence in the code: `makeRandomBets` pre-selects
the first 6 fixture matches and biases bets toward them with Team1 as the
logged "eventual winner" (src/setup.js lines 314-327), but `manageMatches`
finishes up to 4 matches of an independently shuffled selection and draws
each winner uniformly at random (lines 464-467 and 553).  Evaluated at a
shuffle that rotates the fixture by 6 and a winner draw of Team2, the
actually-finished set and winners are disjoint from the pre-selected ones,
refuting the claimed equality. -/
theorem claim_C6_bias_divergence :
    ((manageMatchesRun sampleMatches samplePerm (fun _ => true) (fun _ => true)
        (fun _ _ => true) (fun _ => "Team2")).finished.map Prod.fst ≠
      (matchWinnersPre sampleMatches).map Prod.fst) ∧
    ("6-B-d", "Team2") ∈ (manageMatchesRun sampleMatches samplePerm (fun _ => true)
        (fun _ => true) (fun _ _ => true) (fun _ => "Team2")).finished ∧
    (∀ p ∈ matchWinnersPre sampleMatches, p.2 = "Team1" ∧ p.1 ≠ "6-B-d") := by
  refine ⟨by decide, by decide, by decide⟩

/-! ### Batch execution -/

theorem promiseAll_error_of_mem {ε α : Type} :
    ∀ (rs : List (Except ε α)) (x : Except ε α), x ∈ rs → isFailure x = true →
      ∃ e, promiseAll rs = Except.error e := by
  intro rs
  induction rs with
  | nil => intro x hx; cases hx
  | cons r rest ih =>
    intro x hx hfail
    rcases List.mem_cons.mp hx with h | h
    · subst h
      cases x with
      | ok a => cases hfail
      | error e =>
        refine ⟨e, ?_⟩
        simp [promiseAll]
    · obtain ⟨e, he⟩ := ih x h hfail
      cases r with
      | ok a => exact ⟨e, by simp [promiseAll, he]⟩
      | error e2 => exact ⟨e2, by simp [promiseAll]⟩

theorem promiseAll_ok_of_forall {ε α : Type} :
    ∀ (rs : List (Except ε α)), (∀ x ∈ rs, isFailure x = false) →
      ∃ vs, promiseAll rs = Except.ok vs := by
  intro rs
  induction rs with
  | nil => intro _; exact ⟨[], rfl⟩
  | cons r rest ih =>
    intro h
    obtain ⟨vs, hvs⟩ := ih (fun x hx => h x (List.mem_cons_of_mem _ hx))
    cases r with
    | ok a => exact ⟨a :: vs, by simp [promiseAll, hvs]⟩
    | error e => cases h _ (List.mem_cons_self _ _)

theorem promiseAll_error_imp {ε α : Type} :
    ∀ (rs : List (Except ε α)) (e : ε), promiseAll rs = Except.error e →
      ∃ x ∈ rs, isFailure x = true := by
  intro rs
  induction rs with
  | nil => intro e h; cases h
  | cons r rest ih =>
    intro e h
    cases r with
    | error e2 => exact ⟨Except.error e2, List.mem_cons_self _ _, rfl⟩
    | ok a =>
      cases hr : promiseAll rest with
      | ok vs => rw [promiseAll, hr] at h; cases h
      | error e2 =>
        obtain ⟨x, hx, hfail⟩ := ih e2 hr
        exact ⟨x, List.mem_cons_of_mem _ hx, hfail⟩

theorem bettingBatch_eq {ε α : Type} :
    ∀ (rs : List (Except ε α)),
      bettingBatch rs = Except.ok (rs.map promiseWithCatch) := by
  intro rs
  induction rs with
  | nil => rfl
  | cons r rest ih =>
    simp only [bettingBatch, List.map_cons, promiseAll] at ih ⊢
    rw [ih]

theorem phaseExit_none_iff {ε α : Type} (rs : List (Except ε α)) :
    phaseExit rs = none ↔ ∀ x ∈ rs, isFailure x = false := by
  constructor
  · intro h x hx
    by_contra hfail
    rw [Bool.not_eq_false] at hfail
    obtain ⟨e, he⟩ := promiseAll_error_of_mem rs x hx hfail
    rw [phaseExit, he] at h
    cases h
  · intro h
    obtain ⟨vs, hvs⟩ := promiseAll_ok_of_forall rs h
    rw [phaseExit, hvs]

theorem matchCreationExit_none_iff {ε α : Type} :
    ∀ (mb : List (List (Except ε α))),
      matchCreationExit mb = none ↔ ∀ b ∈ mb, ∀ x ∈ b, isFailure x = false := by
  intro mb
  induction mb with
  | nil => simp [matchCreationExit]
  | cons b rest ih =>
    constructor
    · intro h b2 hb2 x hx
      cases hpb : promiseAll b with
      | error e => rw [matchCreationExit, hpb] at h; cases h
      | ok vs =>
        rw [matchCreationExit, hpb] at h
        rcases List.mem_cons.mp hb2 with hh | hh
        · subst hh
          by_contra hfail
          rw [Bool.not_eq_false] at hfail
          obtain ⟨e, he⟩ := promiseAll_error_of_mem b2 x hx hfail
          rw [he] at hpb
          cases hpb
        · exact ih.mp h b2 hh x hx
    · intro h
      obtain ⟨vs, hvs⟩ := promiseAll_ok_of_forall b
        (fun x hx => h b (List.mem_cons_self _ _) x hx)
      rw [matchCreationExit, hvs]
      exact ih.mpr (fun b2 hb2 => h b2 (List.mem_cons_of_mem _ hb2))

theorem phaseExit_values {ε α : Type} (rs : List (Except ε α)) :
    phaseExit rs = none ∨ phaseExit rs = some 1 := by
  cases h : promiseAll rs <;> simp [phaseExit, h]

theorem matchCreationExit_values {ε α : Type} :
    ∀ (mb : List (List (Except ε α))),
      matchCreationExit mb = none ∨ matchCreationExit mb = some 1 := by
  intro mb
  induction mb with
  | nil => exact Or.inl rfl
  | cons b rest ih =>
    cases h : promiseAll b with
    | error e => exact Or.inr (by rw [matchCreationExit, h])
    | ok vs => rw [matchCreationExit, h]; exact ih

theorem fatalExit_none_iff {ε α : Type} (a n r u : List (Except ε α))
    (mb : List (List (Except ε α))) :
    fatalExit a n r u mb = none ↔
      phaseExit a = none ∧ phaseExit n = none ∧ phaseExit r = none ∧
      phaseExit u = none ∧ matchCreationExit mb = none := by
  rw [fatalExit]
  rcases phaseExit_values a with h1 | h1 <;> rw [h1] <;>
    simp only [Option.none_orElse, Option.some_orElse] <;>
    [skip; simp]
  rcases phaseExit_values n with h2 | h2 <;> rw [h2] <;>
    simp only [Option.none_orElse, Option.some_orElse] <;>
    [skip; simp]
  rcases phaseExit_values r with h3 | h3 <;> rw [h3] <;>
    simp only [Option.none_orElse, Option.some_orElse] <;>
    [skip; simp]
  rcases phaseExit_values u with h4 | h4 <;> rw [h4] <;>
    simp only [Option.none_orElse, Option.some_orElse] <;>
    [skip; simp]
  simp

theorem orElse_values {x y : Option Nat} (hx : x = none ∨ x = some 1)
    (hy : y = none ∨ y = some 1) : (x <|> y) = none ∨ (x <|> y) = some 1 := by
  rcases hx with h | h <;> rcases hy with h2 | h2 <;> subst h <;> subst h2 <;> simp

theorem fatalExit_values {ε α : Type} (a n r u : List (Except ε α))
    (mb : List (List (Except ε α))) :
    fatalExit a n r u mb = none ∨ fatalExit a n r u mb = some 1 := by
  rw [fatalExit]
  exact orElse_values (phaseExit_values a) (orElse_values (phaseExit_values n)
    (orElse_values (phaseExit_values r) (orElse_values (phaseExit_values u)
      (matchCreationExit_values mb))))

/-- Counterexample to C7 as stated: the account-creation batch awaits a
plain `Promise.all`, so a single deterministically failing item rejects the
whole phase — which then exits the process — instead of the batch yielding
per-item outcomes with exactly the failing items marked failed. -/
theorem claim_C7_counterexample :
    promiseAll [Except.ok 1, (Except.error "createAccount failed" : Except String Nat)] =
      Except.error "createAccount failed" ∧
    phaseExit [Except.ok 1, (Except.error "createAccount failed" : Except String Nat)] =
      some 1 :=
  ⟨rfl, rfl⟩

/-- Claim C7 (amended): the betting batch wraps every item in a per-item
`catch`, so it settles every item independently — it yields exactly `N`
per-item outcomes with precisely the failing items marked failed (`none`)
and the others succeeded; the provisioning batches instead use fail-fast
`Promise.all`: any failing item rejects the phase (per-item outcomes are
yielded only when every item succeeds). -/
theorem claim_C7_batch_settlement :
    (∀ (ε α : Type) (rs : List (Except ε α)),
      bettingBatch rs = Except.ok (rs.map promiseWithCatch) ∧
      (rs.map promiseWithCatch).length = rs.length ∧
      (∀ i : Fin rs.length, promiseWithCatch (rs.get i) = none ↔
        isFailure (rs.get i) = true)) ∧
    (∀ (ε α : Type) (rs : List (Except ε α)),
      (∃ x ∈ rs, isFailure x = true) → phaseExit rs = some 1) ∧
    (∀ (ε α : Type) (rs : List (Except ε α)),
      (∀ x ∈ rs, isFailure x = false) → phaseExit rs = none) := by
  refine ⟨?_, ?_, ?_⟩
  · intro ε α rs
    refine ⟨bettingBatch_eq rs, List.length_map _ _, ?_⟩
    intro i
    cases h : rs.get i <;> simp [promiseWithCatch, isFailure, h]
  · rintro ε α rs ⟨x, hx, hfail⟩
    obtain ⟨e, he⟩ := promiseAll_error_of_mem rs x hx hfail
    rw [phaseExit, he]
  · intro ε α rs h
    exact (phaseExit_none_iff rs).mpr h

/-- Witness for C7: a concrete two-item betting batch with one failure
yields both outcomes; a concrete failing provisioning batch exits, a clean
one does not. -/
theorem claim_C7_witness :
    bettingBatch [Except.ok 5, (Except.error "bad" : Except String Nat)] =
      Except.ok [some 5, none] ∧
    phaseExit [(Except.error "bad" : Except String Nat)] = some 1 ∧
    phaseExit [(Except.ok 5 : Except String Nat)] = none := by
  refine ⟨?_, ?_, ?_⟩
  · exact (claim_C7_batch_settlement.1 String Nat _).1
  · exact claim_C7_batch_settlement.2.1 String Nat _
      ⟨_, List.mem_singleton_self _, rfl⟩
  · exact claim_C7_batch_settlement.2.2 String Nat _ (by decide)

/-- Claim C8: failure handling is phase-dependent — an unrecovered item
failure in any of the five provisioning phases (account creation, NEAR
funding, token registration, USDC transfer, match creation) makes the
process exit with code 1; when all five phases are clean the run never
exits, completing the betting/lifecycle/claim phases regardless of their
per-item failures; each claimed bet gets exactly one extra `claimBet`
invocation when its first `claimBet` fails; and with always-failing claim
operations the two `claimBet` invocations perform `2 × 3 = 6` remote
attempts (one extra `claimBet` beyond the Retry Supervisor's own budget). -/
theorem claim_C8_failure_policy :
    (∀ (ε α : Type) (a n r u : List (Except ε α)) (mb : List (List (Except ε α)))
       (fixture perm : List Match) (es cs : String → Bool)
       (fs : String → String → Bool) (wo : Nat → String)
       (bets : String → List BetRec) (fsucc : Nat → Bool),
       ((∃ x ∈ a, isFailure x = true) ∨ (∃ x ∈ n, isFailure x = true) ∨
        (∃ x ∈ r, isFailure x = true) ∨ (∃ x ∈ u, isFailure x = true) ∨
        (∃ b ∈ mb, ∃ x ∈ b, isFailure x = true)) →
       (scriptRun a n r u mb fixture perm es cs fs wo bets fsucc).exitCode = some 1) ∧
    (∀ (ε α : Type) (a n r u : List (Except ε α)) (mb : List (List (Except ε α)))
       (fixture perm : List Match) (es cs : String → Bool)
       (fs : String → String → Bool) (wo : Nat → String)
       (bets : String → List BetRec) (fsucc : Nat → Bool),
       (∀ x ∈ a, isFailure x = false) → (∀ x ∈ n, isFailure x = false) →
       (∀ x ∈ r, isFailure x = false) → (∀ x ∈ u, isFailure x = false) →
       (∀ b ∈ mb, ∀ x ∈ b, isFailure x = false) →
       (scriptRun a n r u mb fixture perm es cs fs wo bets fsucc).exitCode = none ∧
       (scriptRun a n r u mb fixture perm es cs fs wo bets fsucc).claims =
         claimsRun (manageMatchesRun fixture perm es cs fs wo) bets fsucc) ∧
    (∀ (o : MatchOutcomes) (bets : String → List BetRec) (fsucc : Nat → Bool)
       (p : String × BetRec) (k : Nat), (p, k) ∈ claimsRun o bets fsucc →
       k = if fsucc p.2.betId then 1 else 2) ∧
    (∀ (ε α : Type) (op1 op2 : Nat → Except ε α) (e1 e2 : Nat → ε),
       (∀ i, op1 i = Except.error (e1 i)) → (∀ i, op2 i = Except.error (e2 i)) →
       processClaimAttempts op1 op2 = (2, 6)) ∧
    (∀ (ε α : Type) (op1 op2 : Nat → Except ε α) (v : α),
       op1 1 = Except.ok v → processClaimAttempts op1 op2 = (1, 1)) := by
  refine ⟨?_, ?_, ?_, ?_, ?_⟩
  · intro ε α a n r u mb fixture perm es cs fs wo bets fsucc hfail
    have hne : fatalExit a n r u mb ≠ none := by
      intro hnone
      obtain ⟨h1, h2, h3, h4, h5⟩ := (fatalExit_none_iff a n r u mb).mp hnone
      rcases hfail with h | h | h | h | h
      · obtain ⟨x, hx, hf⟩ := h
        rw [(phaseExit_none_iff a).mp h1 x hx] at hf
        cases hf
      · obtain ⟨x, hx, hf⟩ := h
        rw [(phaseExit_none_iff n).mp h2 x hx] at hf
        cases hf
      · obtain ⟨x, hx, hf⟩ := h
        rw [(phaseExit_none_iff r).mp h3 x hx] at hf
        cases hf
      · obtain ⟨x, hx, hf⟩ := h
        rw [(phaseExit_none_iff u).mp h4 x hx] at hf
        cases hf
      · obtain ⟨b, hb, x, hx, hf⟩ := h
        rw [(matchCreationExit_none_iff mb).mp h5 b hb x hx] at hf
        cases hf
    have hsome : fatalExit a n r u mb = some 1 := by
      rcases fatalExit_values a n r u mb with h | h
      · exact absurd h hne
      · exact h
    simp [scriptRun, hsome]
  · intro ε α a n r u mb fixture perm es cs fs wo bets fsucc h1 h2 h3 h4 h5
    have hnone : fatalExit a n r u mb = none :=
      (fatalExit_none_iff a n r u mb).mpr
        ⟨(phaseExit_none_iff a).mpr h1, (phaseExit_none_iff n).mpr h2,
         (phaseExit_none_iff r).mpr h3, (phaseExit_none_iff u).mpr h4,
         (matchCreationExit_none_iff mb).mpr h5⟩
    constructor <;> simp [scriptRun, hnone]
  · intro o bets fsucc p k hmem
    obtain ⟨q, hq, heq⟩ := List.mem_map.mp hmem
    obtain ⟨hq1, hq2⟩ := Prod.mk.injEq _ _ _ _ |>.mp heq
    subst hq1
    exact hq2.symm
  · intro ε α op1 op2 e1 e2 h1 h2
    have r1 := retryGo_all_fail op1 1000 e1 h1 3 1 (by omega)
    have r2 := retryGo_all_fail op2 1000 e2 h2 3 1 (by omega)
    norm_num at r1 r2
    simp [processClaimAttempts, retryOnFail, r1, r2]
  · intro ε α op1 op2 v hok
    have r1 := retryGo_ok op1 1000 v 0 3 1 (by omega)
      (fun j hj => absurd hj (by omega)) (by simpa using hok)
    simp [processClaimAttempts, retryOnFail, r1]

/-- Witness for C8: a failing account-creation item exits with code 1; an
all-clean provisioning run completes with exit code `none`; a concrete
always-failing claim is attempted twice at the `claimBet` level and 6 times
at the remote level. -/
theorem claim_C8_witness :
    (scriptRun [(Except.error "x" : Except String Unit)] [] [] [] [] [] []
      (fun _ => true) (fun _ => true) (fun _ _ => true) (fun _ => "Team1")
      (fun _ => []) (fun _ => true)).exitCode = some 1 ∧
    (scriptRun ([] : List (Except String Unit)) [] [] [] [] sampleMatches samplePerm
      (fun _ => true) (fun _ => true) (fun _ _ => true) (fun _ => "Team1")
      sampleBets (fun _ => true)).exitCode = none ∧
    processClaimAttempts (fun _ => (Except.error "x" : Except String Unit))
      (fun _ => Except.error "y") = (2, 6) := by
  refine ⟨?_, ?_, ?_⟩
  · exact claim_C8_failure_policy.1 String Unit _ _ _ _ _ _ _ _ _ _ _ _ _
      (Or.inl ⟨_, List.mem_singleton_self _, rfl⟩)
  · exact (claim_C8_failure_policy.2.1 String Unit _ _ _ _ _ _ _ _ _ _ _ _ _
      (by simp) (by simp) (by simp) (by simp) (by simp)).1
  · exact claim_C8_failure_policy.2.2.2.1 String Unit _ _ (fun _ => "x")
      (fun _ => "y") (fun i => rfl) (fun i => rfl)

/-! ### Betting loop -/

theorem floor_rand_bounds (q : ℚ) (h0 : 0 ≤ q) (h1 : q < 1) (m : Int) (hm : 1 ≤ m) :
    0 ≤ ⌊q * (m : ℚ)⌋ ∧ ⌊q * (m : ℚ)⌋ ≤ m - 1 := by
  have hmq : (0 : ℚ) < (m : ℚ) := by exact_mod_cast (by omega : (0 : Int) < m)
  constructor
  · exact Int.floor_nonneg.mpr (mul_nonneg h0 (le_of_lt hmq))
  · have hlt : q * (m : ℚ) < (m : ℚ) := by
      calc q * (m : ℚ) < 1 * (m : ℚ) := mul_lt_mul_of_pos_right h1 hmq
        _ = (m : ℚ) := one_mul _
    have hf : ⌊q * (m : ℚ)⌋ < m := Int.floor_lt.mpr hlt
    omega

theorem numberOfBetsOf_bounds (q : ℚ) (h0 : 0 ≤ q) (h1 : q < 1) :
    8 ≤ numberOfBetsOf q ∧ numberOfBetsOf q ≤ 12 := by
  have h := floor_rand_bounds q h0 h1 5 (by omega)
  have h5 : ((5 : Int) : ℚ) = (5 : ℚ) := by norm_num
  rw [h5] at h
  rw [numberOfBetsOf]
  omega

theorem enum_eq_enumFrom (l : List Int) : l.enum = List.enumFrom 0 l := rfl

theorem enumFrom_append_singleton (a : Int) :
    ∀ (l : List Int) (k : Nat),
      List.enumFrom k (l ++ [a]) = List.enumFrom k l ++ [(k + l.length, a)] := by
  intro l
  induction l with
  | nil => intro k; simp [List.enumFrom]
  | cons b l ih =>
    intro k
    show (k, b) :: List.enumFrom (k + 1) (l ++ [a]) =
      (k, b) :: (List.enumFrom (k + 1) l ++ [(k + (b :: l).length, a)])
    rw [ih (k + 1), List.length_cons]
    have h : k + 1 + l.length = k + (l.length + 1) := by omega
    rw [h]

theorem enum_append_singleton (l : List Int) (a : Int) :
    (l ++ [a]).enum = l.enum ++ [(l.length, a)] := by
  rw [enum_eq_enumFrom, enum_eq_enumFrom, enumFrom_append_singleton]
  simp

theorem sum_filter_mono :
    ∀ (l : List (Nat × Int)) (f g : Nat × Int → Bool),
      (∀ p ∈ l, 0 ≤ p.2) → (∀ p ∈ l, f p = true → g p = true) →
      ((l.filter f).map Prod.snd).sum ≤ ((l.filter g).map Prod.snd).sum := by
  intro l
  induction l with
  | nil => intro f g _ _; simp
  | cons p l ih =>
    intro f g hnn himp
    have hnn2 : ∀ q ∈ l, 0 ≤ q.2 := fun q hq => hnn q (List.mem_cons_of_mem _ hq)
    have himp2 : ∀ q ∈ l, f q = true → g q = true :=
      fun q hq => himp q (List.mem_cons_of_mem _ hq)
    have hrec := ih f g hnn2 himp2
    cases hf : f p with
    | true =>
      have hg := himp p (List.mem_cons_self _ _) hf
      simp only [List.filter_cons, hf, hg, if_true, List.map_cons, List.sum_cons]
      omega
    | false =>
      cases hg : g p with
      | true =>
        have hp0 := hnn p (List.mem_cons_self _ _)
        simp only [List.filter_cons, hf, hg, if_true, if_false, Bool.false_eq_true,
          List.map_cons, List.sum_cons]
        omega
      | false =>
        simp only [List.filter_cons, hf, hg, if_false, Bool.false_eq_true]
        exact hrec

theorem sum_le_hundred_mul :
    ∀ (l : List Int), (∀ a ∈ l, a ≤ 100) → l.sum ≤ 100 * l.length := by
  intro l
  induction l with
  | nil => intro _; simp
  | cons a l ih =>
    intro h
    have h1 := h a (List.mem_cons_self _ _)
    have h2 := ih (fun b hb => h b (List.mem_cons_of_mem _ hb))
    simp only [List.sum_cons, List.length_cons]
    push_cast
    push_cast at h2
    omega

theorem enum_snd_nonneg (l : List Int) (h : ∀ a ∈ l, 0 ≤ a) :
    ∀ p ∈ l.enum, 0 ≤ p.2 := by
  intro p hp
  rw [enum_eq_enumFrom] at hp
  exact h p.2 (List.snd_mem_of_mem_enumFrom hp)

theorem ledgerView_le_sum (rb : Nat → Nat → Bool) (i : Nat) (acc : List Int)
    (h : ∀ a ∈ acc, 0 ≤ a) : ledgerView rb i acc ≤ acc.sum := by
  have hmono := sum_filter_mono acc.enum (fun p => !(rb i p.1)) (fun _ => true)
    (enum_snd_nonneg acc h) (fun p _ _ => rfl)
  have htrue : acc.enum.filter (fun _ => true) = acc.enum :=
    List.filter_eq_self.mpr (fun p _ => rfl)
  rw [htrue] at hmono
  calc ledgerView rb i acc ≤ (acc.enum.map Prod.snd).sum := hmono
    _ = acc.sum := by rw [List.enum_map_snd]

theorem ledgerView_no_rollback (rb : Nat → Nat → Bool) (i : Nat) (acc : List Int)
    (hnrb : ∀ i2 j, rb i2 j = false) : ledgerView rb i acc = acc.sum := by
  rw [ledgerView]
  have hfil : acc.enum.filter (fun p => !(rb i p.1)) = acc.enum :=
    List.filter_eq_self.mpr (fun p _ => by simp [hnrb])
  rw [hfil, List.enum_map_snd]

theorem enumFrom_flag_filter (succ : Nat → Bool) :
    ∀ (l : List Int) (k : Nat),
      (((List.enumFrom k l).map (fun p => (p.2, succ p.1))).filter
          (fun q => q.2)).map Prod.fst =
        ((List.enumFrom k l).filter (fun p => succ p.1)).map Prod.snd := by
  intro l
  induction l with
  | nil => intro k; rfl
  | cons a l ih =>
    intro k
    cases h : succ k <;>
      simp only [List.enumFrom, List.map_cons, List.filter_cons, h, if_true,
        if_false, Bool.false_eq_true, List.map_cons] <;>
      rw [ih (k + 1)]

theorem successfulSum_eq_enumFilter (succ : Nat → Bool) (l : List Int) :
    successfulSum succ l =
      ((l.enum.filter (fun p => succ p.1)).map Prod.snd).sum := by
  show ((((List.enumFrom 0 l).map (fun p => (p.2, succ p.1))).filter
      (fun q => q.2)).map Prod.fst).sum = _
  rw [enumFrom_flag_filter succ l 0]
  rfl

theorem makeBetsConc_amount_bounds (r : Nat → ℚ) (rb : Nat → Nat → Bool)
    (hr : ∀ i, 0 ≤ r i ∧ r i < 1) :
    ∀ (n : Nat) (acc : List Int), (∀ a ∈ acc, 1 ≤ a ∧ a ≤ 100) →
      ∀ a ∈ makeBetsConc r rb acc n, 1 ≤ a ∧ a ≤ 100 := by
  intro n
  induction n with
  | zero => intro acc hacc a ha; exact hacc a ha
  | succ n ih =>
    intro acc hacc a ha
    simp only [makeBetsConc] at ha
    by_cases hrem : (1000 : Int) - ledgerView rb acc.length acc ≤ 0
    · rw [if_pos hrem] at ha
      exact hacc a ha
    · rw [if_neg hrem] at ha
      have hmax1 : (1 : Int) ≤ min (1000 - ledgerView rb acc.length acc) 100 := by
        omega
      have hfb := floor_rand_bounds (r acc.length) (hr acc.length).1
        (hr acc.length).2 _ hmax1
      have hm100 : min (1000 - ledgerView rb acc.length acc) 100 ≤ 100 :=
        min_le_right _ _
      refine ih _ ?_ a ha
      intro b hb
      rcases List.mem_append.mp hb with h | h
      · exact hacc b h
      · simp only [List.mem_singleton] at h
        subst h
        omega

theorem makeBetsConc_length_mono (r : Nat → ℚ) (rb : Nat → Nat → Bool) :
    ∀ (n : Nat) (acc : List Int), acc.length ≤ (makeBetsConc r rb acc n).length := by
  intro n
  induction n with
  | zero => intro acc; exact le_rfl
  | succ n ih =>
    intro acc
    simp only [makeBetsConc]
    by_cases hrem : (1000 : Int) - ledgerView rb acc.length acc ≤ 0
    · rw [if_pos hrem]
    · rw [if_neg hrem]
      have h := ih (acc ++
        [⌊r acc.length *
          ((min (1000 - ledgerView rb acc.length acc) 100 : Int) : ℚ)⌋ + 1])
      simp only [List.length_append, List.length_singleton] at h
      omega

theorem makeBetsConc_length_le (r : Nat → ℚ) (rb : Nat → Nat → Bool) :
    ∀ (n : Nat) (acc : List Int),
      (makeBetsConc r rb acc n).length ≤ acc.length + n := by
  intro n
  induction n with
  | zero => intro acc; simp [makeBetsConc]
  | succ n ih =>
    intro acc
    simp only [makeBetsConc]
    by_cases hrem : (1000 : Int) - ledgerView rb acc.length acc ≤ 0
    · rw [if_pos hrem]
      omega
    · rw [if_neg hrem]
      have h := ih (acc ++
        [⌊r acc.length *
          ((min (1000 - ledgerView rb acc.length acc) 100 : Int) : ℚ)⌋ + 1])
      simp only [List.length_append, List.length_singleton] at h
      omega

theorem makeBetsConc_length_ge (r : Nat → ℚ) (rb : Nat → Nat → Bool)
    (hr : ∀ i, 0 ≤ r i ∧ r i < 1) :
    ∀ (m n : Nat) (acc : List Int), m ≤ n →
      (∀ a ∈ acc, 1 ≤ a ∧ a ≤ 100) → acc.length + m ≤ 10 →
      acc.length + m ≤ (makeBetsConc r rb acc n).length := by
  intro m
  induction m with
  | zero =>
    intro n acc _ _ _
    simpa using makeBetsConc_length_mono r rb n acc
  | succ m ih =>
    intro n acc hmn hacc hlen
    obtain ⟨n2, rfl⟩ : ∃ n2, n = n2 + 1 := ⟨n - 1, by omega⟩
    have hnn : ∀ a ∈ acc, 0 ≤ a := fun a ha => by have := hacc a ha; omega
    have h100 : ∀ a ∈ acc, a ≤ 100 := fun a ha => (hacc a ha).2
    have hled := ledgerView_le_sum rb acc.length acc hnn
    have hsum := sum_le_hundred_mul acc h100
    have hlt : ¬ (1000 : Int) - ledgerView rb acc.length acc ≤ 0 := by
      push_cast at hsum
      omega
    simp only [makeBetsConc]
    rw [if_neg hlt]
    have hmax1 : (1 : Int) ≤ min (1000 - ledgerView rb acc.length acc) 100 := by
      omega
    have hfb := floor_rand_bounds (r acc.length) (hr acc.length).1
      (hr acc.length).2 _ hmax1
    have hm100 : min (1000 - ledgerView rb acc.length acc) 100 ≤ 100 :=
      min_le_right _ _
    have hacc2 : ∀ b ∈ acc ++
        [⌊r acc.length *
          ((min (1000 - ledgerView rb acc.length acc) 100 : Int) : ℚ)⌋ + 1],
        1 ≤ b ∧ b ≤ 100 := by
      intro b hb
      rcases List.mem_append.mp hb with h | h
      · exact hacc b h
      · simp only [List.mem_singleton] at h
        subst h
        omega
    have hrec := ih n2 _ (by omega) hacc2
      (by simp only [List.length_append, List.length_singleton]; omega)
    simp only [List.length_append, List.length_singleton] at hrec
    omega

theorem makeBetsConc_sum_le_no_rollback (r : Nat → ℚ) (rb : Nat → Nat → Bool)
    (hr : ∀ i, 0 ≤ r i ∧ r i < 1) (hnrb : ∀ i j, rb i j = false) :
    ∀ (n : Nat) (acc : List Int), acc.sum ≤ 1000 →
      (makeBetsConc r rb acc n).sum ≤ 1000 := by
  intro n
  induction n with
  | zero => intro acc h; exact h
  | succ n ih =>
    intro acc h
    simp only [makeBetsConc]
    rw [ledgerView_no_rollback rb acc.length acc hnrb]
    by_cases hrem : (1000 : Int) - acc.sum ≤ 0
    · rw [if_pos hrem]
      exact h
    · rw [if_neg hrem]
      have hmax1 : (1 : Int) ≤ min (1000 - acc.sum) 100 := by omega
      have hfb := floor_rand_bounds (r acc.length) (hr acc.length).1
        (hr acc.length).2 _ hmax1
      have hminle : min (1000 - acc.sum) 100 ≤ 1000 - acc.sum := min_le_left _ _
      refine ih _ ?_
      simp only [List.sum_append, List.sum_cons, List.sum_nil]
      omega

theorem makeBetsConc_succSum_le (r : Nat → ℚ) (rb : Nat → Nat → Bool)
    (succ : Nat → Bool) (hr : ∀ i, 0 ≤ r i ∧ r i < 1)
    (hrb : ∀ i j, rb i j = true → succ j = false) :
    ∀ (n : Nat) (acc : List Int), (∀ a ∈ acc, 0 ≤ a) →
      ((acc.enum.filter (fun p => succ p.1)).map Prod.snd).sum ≤ 1000 →
      (((makeBetsConc r rb acc n).enum.filter
        (fun p => succ p.1)).map Prod.snd).sum ≤ 1000 := by
  intro n
  induction n with
  | zero => intro acc _ h; exact h
  | succ n ih =>
    intro acc hnn hsuc
    simp only [makeBetsConc]
    by_cases hrem : (1000 : Int) - ledgerView rb acc.length acc ≤ 0
    · rw [if_pos hrem]
      exact hsuc
    · rw [if_neg hrem]
      set a : Int := ⌊r acc.length *
        ((min (1000 - ledgerView rb acc.length acc) 100 : Int) : ℚ)⌋ + 1 with ha
      have hmax1 : (1 : Int) ≤ min (1000 - ledgerView rb acc.length acc) 100 := by
        omega
      have hfb := floor_rand_bounds (r acc.length) (hr acc.length).1
        (hr acc.length).2 _ hmax1
      have ha1 : 1 ≤ a := by rw [ha]; omega
      have haup : a ≤ 1000 - ledgerView rb acc.length acc := by
        have hmle := min_le_left (1000 - ledgerView rb acc.length acc) 100
        rw [ha]
        omega
      refine ih (acc ++ [a]) (fun b hb => ?_) ?_
      · rcases List.mem_append.mp hb with h | h
        · exact hnn b h
        · simp only [List.mem_singleton] at h
          subst h
          omega
      · rw [enum_append_singleton, List.filter_append, List.map_append,
          List.sum_append]
        cases hs : succ acc.length with
        | false =>
          simp only [List.filter_cons, List.filter_nil, hs, if_false,
            Bool.false_eq_true, List.map_nil, List.sum_nil]
          omega
        | true =>
          simp only [List.filter_cons, List.filter_nil, hs, if_true,
            List.map_cons, List.map_nil, List.sum_cons, List.sum_nil]
          have hcmp := sum_filter_mono acc.enum (fun p => succ p.1)
            (fun p => !(rb acc.length p.1)) (enum_snd_nonneg acc hnn)
            (fun p _ hf => by
              have hf2 : succ p.1 = true := hf
              show (!(rb acc.length p.1)) = true
              cases h2 : rb acc.length p.1
              · rfl
              · rw [hrb acc.length p.1 h2] at hf2
                cases hf2)
          have hld : ((acc.enum.filter (fun p => !(rb acc.length p.1))).map
              Prod.snd).sum = ledgerView rb acc.length acc := rfl
          rw [hld] at hcmp
          omega

set_option maxRecDepth 4000 in
/-- Counterexample to C9's ceiling conjunct as stated: with 11 bets drawn,
every amount draw at its maximum (100), and bet 0's rejection handler having
run before the 11th allowance check (reachable: retry exhaustion takes about
3 s, well inside the loop's 10 × 500 ms of sleeps), that check reads a
ledger of 900, permits an 11th 100-USDC bet, and the cumulative attempted
wager reaches 1100 > 1000. -/
theorem claim_C9_counterexample :
    1000 < (makeBetsAttempts (3/5) (fun _ => 99/100)
      (fun i j => decide (j = 0 ∧ 10 ≤ i))).sum := by
  norm_num [makeBetsAttempts, makeBetsConc, ledgerView, numberOfBetsOf,
    List.enum, List.enumFrom, Function.comp]

/-- Claim C9 (amended): per account, the number of bets attempted is between
8 and 12 inclusive (the cumulative-ceiling break cannot trigger before the
8th bet, since each bet is at most 100 and the ledger a check reads never
exceeds the attempted sum so far) and every attempted amount is an integer
between 1 and 100 — for every rollback schedule; the cumulative attempted
wager stays within the 1000 ceiling provided no failed bet's rollback
becomes visible to an allowance check while the loop is still running (in
particular whenever every bet succeeds).  A mid-loop rollback replenishes
the allowance and can push the attempted total above 1000. -/
theorem claim_C9_bet_bounds (nq : ℚ) (h0 : 0 ≤ nq) (h1 : nq < 1)
    (r : Nat → ℚ) (hr : ∀ i, 0 ≤ r i ∧ r i < 1) (rb : Nat → Nat → Bool) :
    8 ≤ (makeBetsAttempts nq r rb).length ∧
    (makeBetsAttempts nq r rb).length ≤ 12 ∧
    (∀ a ∈ makeBetsAttempts nq r rb, 1 ≤ a ∧ a ≤ 100) ∧
    ((∀ i j, rb i j = false) → (makeBetsAttempts nq r rb).sum ≤ 1000) := by
  obtain ⟨hn8, hn12⟩ := numberOfBetsOf_bounds nq h0 h1
  refine ⟨?_, ?_, ?_, ?_⟩
  · have h := makeBetsConc_length_ge r rb hr 8 (numberOfBetsOf nq) [] hn8
      (fun a ha => absurd ha (List.not_mem_nil a)) (by simp)
    simpa using h
  · have h := makeBetsConc_length_le r rb (numberOfBetsOf nq) []
    simp only [List.length_nil, Nat.zero_add] at h
    exact le_trans h hn12
  · intro a ha
    exact makeBetsConc_amount_bounds r rb hr (numberOfBetsOf nq) []
      (fun b hb => absurd hb (List.not_mem_nil b)) a ha
  · intro hnrb
    exact makeBetsConc_sum_le_no_rollback r rb hr hnrb (numberOfBetsOf nq) []
      (by simp)

/-- Witness for C9 (amended): with all draws at 0 and no rollback landing
mid-loop, the account attempts exactly 8 bets of 1 USDC each, within all
bounds including the ceiling. -/
theorem claim_C9_witness :
    8 ≤ (makeBetsAttempts 0 (fun _ => 0) (fun _ _ => false)).length ∧
    (makeBetsAttempts 0 (fun _ => 0) (fun _ _ => false)).length ≤ 12 ∧
    (∀ a ∈ makeBetsAttempts 0 (fun _ => 0) (fun _ _ => false),
      1 ≤ a ∧ a ≤ 100) ∧
    (makeBetsAttempts 0 (fun _ => 0) (fun _ _ => false)).sum ≤ 1000 := by
  have h := claim_C9_bet_bounds 0 le_rfl (by norm_num) (fun _ => 0)
    (fun i => ⟨le_rfl, by norm_num⟩) (fun _ _ => false)
  exact ⟨h.1, h.2.1, h.2.2.1, h.2.2.2 (fun i j => rfl)⟩

theorem sum_split_by_flag :
    ∀ (l : List (Int × Bool)),
      (l.map Prod.fst).sum - ((l.filter (fun p => !p.2)).map Prod.fst).sum =
        ((l.filter (fun p => p.2)).map Prod.fst).sum := by
  intro l
  induction l with
  | nil => simp
  | cons p l ih =>
    cases hb : p.2 <;> simp [List.filter_cons, hb] <;> omega

theorem enumFrom_outcome_fst (succ : Nat → Bool) :
    ∀ (l : List Int) (k : Nat),
      ((List.enumFrom k l).map (fun p => (p.2, succ p.1))).map Prod.fst = l := by
  intro l
  induction l with
  | nil => intro k; rfl
  | cons a l ih =>
    intro k
    simp only [List.enumFrom, List.map_cons]
    rw [ih (k + 1)]

theorem betsWithOutcome_fst (succ : Nat → Bool) (amounts : List Int) :
    (betsWithOutcome succ amounts).map Prod.fst = amounts :=
  enumFrom_outcome_fst succ amounts 0

/-- Claim C10: failed bets are rolled back in the per-account wager ledger —
for every rollback schedule in which only rejected bets' handlers run, the
tracked total after all bet promises settle (all push-time additions minus
the catch-handler subtractions) equals the sum of the successfully placed
bets' amounts, and that successfully wagered total never exceeds the 1000
ceiling: the bets that eventually succeed are never rolled back, so they are
always counted in the ledger each allowance check reads, and every permitted
bet keeps the successful total within the ceiling even when mid-loop
rollbacks inflate the attempted total. -/
theorem claim_C10_rollback (succ : Nat → Bool) (nq : ℚ) (r : Nat → ℚ)
    (rb : Nat → Nat → Bool) (hr : ∀ i, 0 ≤ r i ∧ r i < 1)
    (hrb : ∀ i j, rb i j = true → succ j = false) :
    trackedAfterSettle succ (makeBetsAttempts nq r rb) =
      successfulSum succ (makeBetsAttempts nq r rb) ∧
    successfulSum succ (makeBetsAttempts nq r rb) ≤ 1000 := by
  have hfst := betsWithOutcome_fst succ (makeBetsAttempts nq r rb)
  have hsplit := sum_split_by_flag (betsWithOutcome succ (makeBetsAttempts nq r rb))
  rw [hfst] at hsplit
  have heq : trackedAfterSettle succ (makeBetsAttempts nq r rb) =
      successfulSum succ (makeBetsAttempts nq r rb) := by
    rw [trackedAfterSettle, successfulSum]
    exact hsplit
  refine ⟨heq, ?_⟩
  have hs := makeBetsConc_succSum_le r rb succ hr hrb (numberOfBetsOf nq) []
    (fun a ha => absurd ha (List.not_mem_nil a)) (by simp)
  rw [successfulSum_eq_enumFilter]
  exact hs

/-- Witness for C10 at the mid-loop-rollback schedule of the C9
counterexample (bet 0 rejected and rolled back before the 11th check, all
other bets succeeding): the settled ledger equals the successful sum and
stays within the ceiling even though 1100 was attempted. -/
theorem claim_C10_witness :
    trackedAfterSettle (fun j => decide (j ≠ 0))
        (makeBetsAttempts (3/5) (fun _ => 99/100)
          (fun i j => decide (j = 0 ∧ 10 ≤ i))) =
      successfulSum (fun j => decide (j ≠ 0))
        (makeBetsAttempts (3/5) (fun _ => 99/100)
          (fun i j => decide (j = 0 ∧ 10 ≤ i))) ∧
    successfulSum (fun j => decide (j ≠ 0))
        (makeBetsAttempts (3/5) (fun _ => 99/100)
          (fun i j => decide (j = 0 ∧ 10 ≤ i))) ≤ 1000 := by
  exact claim_C10_rollback (fun j => decide (j ≠ 0)) (3/5) (fun _ => 99/100)
    (fun i j => decide (j = 0 ∧ 10 ≤ i))
    (fun i => ⟨by norm_num, by norm_num⟩)
    (fun i j h => by
      simp only [decide_eq_true_eq] at h
      simp [h.1])
